import Mathlib

/-!
Verification of the LinearVestingVault accounting engine
(src/contracts/LinearVestingVault.sol) against its specification.

The contract is written in Solidity 0.8 with SafeMath, where every
arithmetic overflow or underflow reverts instead of wrapping; a successful
execution therefore agrees with unbounded natural-number arithmetic, and we
model all uint256 values as Nat.  Failing operations are modelled with
Except: an error result carries no state, matching the all-or-nothing
revert semantics of the EVM.  Addresses are modelled as Nat with 0 playing
the role of address(0), and the mapping address to Allocation[] is an
association list updated only through setAllocs.
-/

namespace VolVesting

/-- One vesting grant, mirroring struct Allocation (lines 31-38 of the
contract): fields start, cliff, duration, total, claimed, initial. -/
structure Allocation where
  start : Nat
  cliff : Nat
  duration : Nat
  total : Nat
  claimed : Nat
  initial : Nat
deriving DecidableEq

/-- Embeds _vestedAmount (lines 169-192); now stands for block.timestamp.
In the source the third branch reads
initial + (total - initial - amount) * (now - start) / duration, where
amount is the zero-initialised named return value, so the extra subtraction
subtracts zero and is dropped here. -/
def vestedAmount (a : Allocation) (now : Nat) : Nat :=
  if now < a.start + a.cliff then 0
  else if a.start + a.duration ≤ now then a.total
  else a.initial + (a.total - a.initial) * (now - a.start) / a.duration

/-- Embeds _releasableAmount (lines 157-163): vested minus claimed.
SafeMath sub reverts when claimed exceeds vested, a case no reachable
state produces; Nat subtraction truncates to zero there. -/
def releasableAmount (a : Allocation) (now : Nat) : Nat :=
  vestedAmount a now - a.claimed

/-- Beneficiary identities; 0 plays the role of address(0). -/
abbrev Addr := Nat

/-- The storage mapping address to Allocation[] (line 41), as an
association list. -/
abbrev Store := List (Addr × List Allocation)

/-- Reads allocations of a beneficiary; absent keys give the empty
sequence, as an untouched Solidity mapping slot does. -/
def getAllocs : Store → Addr → List Allocation
  | [], _ => []
  | (a, ys) :: rest, b => if a = b then ys else getAllocs rest b

/-- Writes the allocation sequence of one beneficiary, replacing the first
entry with that key or appending a fresh entry. -/
def setAllocs : Store → Addr → List Allocation → Store
  | [], b, xs => [(b, xs)]
  | (a, ys) :: rest, b, xs =>
      if a = b then (a, xs) :: rest else (a, ys) :: setAllocs rest b xs

/-- Failure modes of the vault operations: the four require clauses of
issue (lines 70-73), the index bound checks (lines 91 and 113), and the
Nothing to release check (line 117). -/
inductive VaultError where
  | allowanceTooLow
  | zeroBeneficiary
  | cliffExceedsDuration
  | badInitialPct
  | indexOutOfRange
  | nothingToRelease
deriving DecidableEq

/-- Observable effects of an operation, in execution order: token
transfers into and out of the vault, and the in-place update of a stored
claimed field. -/
inductive Event where
  | transferIn (src : Addr) (amount : Nat)
  | claimedSet (b : Addr) (i : Nat) (newClaimed : Nat)
  | transferOut (recipient : Addr) (amount : Nat)
deriving DecidableEq

deriving instance DecidableEq for Except

/-- Vault state: the allocation store plus the vault's custodied token
balance (the token contract's balanceOf the vault, tracked explicitly). -/
structure VaultState where
  store : Store
  balance : Nat
deriving DecidableEq

/-- Embeds issue (lines 62-79).  The caller's token allowance to the vault
is passed in as a parameter of the model; the four require clauses are
checked in source order, then amount is pulled in and the new allocation
is appended with claimed = 0 and initial = amount * initialPct / 100. -/
def issue (s : VaultState) (caller : Addr) (allowance : Nat) (b : Addr)
    (amount startAt cliff duration initialPct : Nat) :
    Except VaultError (VaultState × List Event) :=
  if allowance < amount then .error .allowanceTooLow
  else if b = 0 then .error .zeroBeneficiary
  else if duration < cliff then .error .cliffExceedsDuration
  else if 100 < initialPct then .error .badInitialPct
  else
    .ok (⟨setAllocs s.store b
            (getAllocs s.store b ++
              [⟨startAt, cliff, duration, amount, 0, amount * initialPct / 100⟩]),
          s.balance + amount⟩,
         [Event.transferIn caller amount])

/-- Updates only the claimed field of an allocation, as line 119 does. -/
def bumpClaimed (a : Allocation) (amt : Nat) : Allocation :=
  ⟨a.start, a.cliff, a.duration, a.total, a.claimed + amt, a.initial⟩

/-- State and events of a successful release: claimed is bumped first
(line 119), then the transfer to the beneficiary happens (line 120). -/
def releaseResult (s : VaultState) (b : Addr) (i : Nat) (a : Allocation)
    (amt : Nat) : VaultState × List Event :=
  (⟨setAllocs s.store b ((getAllocs s.store b).set i (bumpClaimed a amt)),
    s.balance - amt⟩,
   [Event.claimedSet b i (a.claimed + amt), Event.transferOut b amt])

/-- Embeds release (lines 112-126): bound check, Nothing to release check,
then claimed update followed by the outbound transfer. -/
def release (s : VaultState) (b : Addr) (i : Nat) (now : Nat) :
    Except VaultError (VaultState × List Event) :=
  if h : i < (getAllocs s.store b).length then
    if releasableAmount ((getAllocs s.store b).get ⟨i, h⟩) now = 0 then
      .error .nothingToRelease
    else
      .ok (releaseResult s b i ((getAllocs s.store b).get ⟨i, h⟩)
            (releasableAmount ((getAllocs s.store b).get ⟨i, h⟩) now))
  else .error .indexOutOfRange

/-- Swap-and-pop removal (lines 96-97): overwrite index i with the last
element unless i already is the last index, then pop the last element. -/
def swapPop (xs : List Allocation) (i : Nat) (h : i < xs.length) :
    List Allocation :=
  (if i = xs.length - 1 then xs
   else xs.set i (xs.get ⟨xs.length - 1,
     Nat.sub_lt (Nat.lt_of_le_of_lt (Nat.zero_le i) h) Nat.one_pos⟩)).dropLast

/-- Embeds revoke (lines 87-105): bound check, remainder = total - claimed,
swap-and-pop removal, then transfer of the remainder to the caller. -/
def revoke (s : VaultState) (caller b : Addr) (i : Nat) :
    Except VaultError (VaultState × List Event) :=
  if h : i < (getAllocs s.store b).length then
    .ok (⟨setAllocs s.store b (swapPop (getAllocs s.store b) i h),
          s.balance - (((getAllocs s.store b).get ⟨i, h⟩).total -
            ((getAllocs s.store b).get ⟨i, h⟩).claimed)⟩,
         [Event.transferOut caller
           (((getAllocs s.store b).get ⟨i, h⟩).total -
             ((getAllocs s.store b).get ⟨i, h⟩).claimed)])
  else .error .indexOutOfRange

/-- The loop body of releaseAll, with an explicit fuel for termination.
Any error of the inner release aborts the whole loop, exactly as a failed
require in the inner call reverts the entire releaseAll transaction. -/
def releaseAllLoop (b : Addr) (now : Nat) :
    Nat → VaultState → Nat → Except VaultError VaultState
  | 0, s, _ => .ok s
  | fuel + 1, s, i =>
      if i < (getAllocs s.store b).length then
        match release s b i now with
        | .error e => .error e
        | .ok (s2, _) => releaseAllLoop b now fuel s2 (i + 1)
      else .ok s

/-- Embeds releaseAll (lines 132-136): for i from 0 while i is below the
current length, call release.  Successful release calls preserve the
sequence length, so a fuel equal to the initial length makes the fuelled
loop perform exactly the iterations of the source loop. -/
def releaseAll (s : VaultState) (b : Addr) (now : Nat) :
    Except VaultError VaultState :=
  releaseAllLoop b now (getAllocs s.store b).length s 0

/-- States reachable from the freshly deployed vault (empty store, zero
custodied balance) by successful operations at arbitrary parameters and
timestamps. -/
inductive Reachable : VaultState → Prop where
  | init : Reachable ⟨[], 0⟩
  | issueStep (s s2 : VaultState) (ev : List Event) (caller : Addr)
      (allowance : Nat) (b : Addr)
      (amount startAt cliff duration initialPct : Nat) :
      Reachable s →
      issue s caller allowance b amount startAt cliff duration initialPct
        = .ok (s2, ev) →
      Reachable s2
  | releaseStep (s s2 : VaultState) (ev : List Event) (b : Addr)
      (i now : Nat) :
      Reachable s → release s b i now = .ok (s2, ev) → Reachable s2
  | releaseAllStep (s s2 : VaultState) (b : Addr) (now : Nat) :
      Reachable s → releaseAll s b now = .ok s2 → Reachable s2
  | revokeStep (s s2 : VaultState) (ev : List Event) (caller b : Addr)
      (i : Nat) :
      Reachable s → revoke s caller b i = .ok (s2, ev) → Reachable s2

/-- Per-allocation bookkeeping soundness: claimed and the initial tranche
never exceed the total, and the cliff never exceeds the duration. -/
def AllocOk (a : Allocation) : Prop :=
  a.claimed ≤ a.total ∧ a.initial ≤ a.total ∧ a.cliff ≤ a.duration

instance (a : Allocation) : Decidable (AllocOk a) := by
  unfold AllocOk
  infer_instance

/-- Every allocation stored anywhere satisfies AllocOk. -/
def StoreOk (st : Store) : Prop := ∀ p ∈ st, ∀ a ∈ p.2, AllocOk a

/-- Sum of total - claimed over one beneficiary's sequence. -/
def allocsOutstanding (xs : List Allocation) : Nat :=
  (xs.map (fun a => a.total - a.claimed)).sum

/-- Sum of total - claimed over all live allocations of all
beneficiaries. -/
def storeOutstanding (st : Store) : Nat :=
  (st.map (fun p => allocsOutstanding p.2)).sum

/-- Vested amount never exceeds the total of the allocation, provided the
initial tranche does not exceed the total. -/
lemma vestedAmount_le_total (a : Allocation) (hit : a.initial ≤ a.total)
    (now : Nat) : vestedAmount a now ≤ a.total := by
  unfold vestedAmount
  split
  · exact Nat.zero_le _
  · split
    · exact Nat.le_refl _
    · rename_i h1 h2
      have hd : 0 < a.duration := by omega
      have he : now - a.start ≤ a.duration := by omega
      have hq : (a.total - a.initial) * (now - a.start) / a.duration
          ≤ a.total - a.initial := by
        calc (a.total - a.initial) * (now - a.start) / a.duration
            ≤ (a.total - a.initial) * a.duration / a.duration :=
              Nat.div_le_div_right (Nat.mul_le_mul (Nat.le_refl _) he)
          _ = a.total - a.initial := Nat.mul_div_cancel _ hd
      omega

/-- Reading back the beneficiary just written gives the written list. -/
lemma getAllocs_setAllocs_same (st : Store) (b : Addr)
    (xs : List Allocation) : getAllocs (setAllocs st b xs) b = xs := by
  induction st with
  | nil => simp [setAllocs, getAllocs]
  | cons p rest ih =>
      obtain ⟨c, ys⟩ := p
      by_cases hp : c = b
      · simp [setAllocs, getAllocs, hp]
      · simp [setAllocs, getAllocs, hp, ih]

/-- Writing one beneficiary leaves every other beneficiary's sequence
unchanged. -/
lemma getAllocs_setAllocs_ne (st : Store) (b c : Addr)
    (xs : List Allocation) (hne : c ≠ b) :
    getAllocs (setAllocs st b xs) c = getAllocs st c := by
  induction st with
  | nil =>
      simp only [setAllocs, getAllocs]
      rw [if_neg (Ne.symm hne)]
  | cons p rest ih =>
      obtain ⟨d, ys⟩ := p
      by_cases hp : d = b
      · subst hp
        simp only [setAllocs, if_pos rfl, getAllocs]
        rw [if_neg (Ne.symm hne), if_neg (Ne.symm hne)]
      · simp only [setAllocs, if_neg hp, getAllocs]
        by_cases hd : d = c
        · rw [if_pos hd, if_pos hd]
        · rw [if_neg hd, if_neg hd, ih]

/-- Swap-and-pop always shrinks the sequence by exactly one. -/
lemma swapPop_length (xs : List Allocation) (i : Nat) (h : i < xs.length) :
    (swapPop xs i h).length = xs.length - 1 := by
  unfold swapPop
  split <;> simp

/-- C2, counterexample.  The claim says vestedAmount at now exactly equal
to start + cliff returns initial for every allocation with cliff at most
duration and initial at most total.  The allocation with start 0, cliff 5,
duration 10, total 100, claimed 0, initial 0 satisfies both side
conditions, yet at now = 5 the code returns
initial + (total - initial) * (now - start) / duration = 50, not 0: the
mid-range branch runs the linear formula at the cliff instant, with the
numerator measured from start, so the value at the cliff exceeds initial
whenever cliff is positive and the linear term is nonzero. -/
theorem vestedAmount_at_cliff_cex :
    (Allocation.mk 0 5 10 100 0 0).cliff ≤ (Allocation.mk 0 5 10 100 0 0).duration ∧
    (Allocation.mk 0 5 10 100 0 0).initial ≤ (Allocation.mk 0 5 10 100 0 0).total ∧
    vestedAmount (Allocation.mk 0 5 10 100 0 0)
        ((Allocation.mk 0 5 10 100 0 0).start + (Allocation.mk 0 5 10 100 0 0).cliff)
      = 50 ∧
    vestedAmount (Allocation.mk 0 5 10 100 0 0)
        ((Allocation.mk 0 5 10 100 0 0).start + (Allocation.mk 0 5 10 100 0 0).cliff)
      ≠ (Allocation.mk 0 5 10 100 0 0).initial := by
  refine ⟨by decide, by decide, by decide, by decide⟩

/-- C2, amended.  For every allocation with cliff ≤ duration and
initial ≤ total: before start + cliff the vested amount is 0; at exactly
start + duration it is total; at exactly start + cliff it is total when
cliff = duration, and otherwise it is
initial + (total - initial) * cliff / duration, which collapses to the
claimed value initial exactly in the case cliff = 0 (with positive
duration). -/
theorem vestedAmount_boundary_values (a : Allocation)
    (hcd : a.cliff ≤ a.duration) (hit : a.initial ≤ a.total) :
    (∀ now, now < a.start + a.cliff → vestedAmount a now = 0) ∧
    vestedAmount a (a.start + a.duration) = a.total ∧
    (a.cliff < a.duration →
      vestedAmount a (a.start + a.cliff)
        = a.initial + (a.total - a.initial) * a.cliff / a.duration) ∧
    (a.cliff = a.duration → vestedAmount a (a.start + a.cliff) = a.total) ∧
    (a.cliff = 0 → 0 < a.duration →
      vestedAmount a (a.start + a.cliff) = a.initial) := by
  refine ⟨?_, ?_, ?_, ?_, ?_⟩
  · intro now hnow
    unfold vestedAmount
    rw [if_pos hnow]
  · unfold vestedAmount
    rw [if_neg (by omega), if_pos (by omega)]
  · intro hlt
    unfold vestedAmount
    rw [if_neg (by omega), if_neg (by omega),
      show a.start + a.cliff - a.start = a.cliff by omega]
  · intro heq
    unfold vestedAmount
    rw [if_neg (by omega), if_pos (by omega)]
  · intro hc hd
    unfold vestedAmount
    rw [if_neg (by omega), if_neg (by omega)]
    rw [hc]
    simp

/-- C2, witness for the amended theorem at a concrete allocation. -/
theorem vestedAmount_boundary_values_witness :
    vestedAmount (Allocation.mk 0 5 10 100 0 20) 5 = 20 + 80 * 5 / 10 := by
  have h := (vestedAmount_boundary_values (Allocation.mk 0 5 10 100 0 20)
    (by decide) (by decide)).2.2.1 (by decide)
  simpa using h

/-- C3.  For every allocation and every now with
start + cliff ≤ now < start + duration, vestedAmount equals
initial + (total - initial) * (now - start) / duration with floor
division, the numerator measured from start and divided by the full
duration. -/
theorem vestedAmount_mid_formula (a : Allocation) (now : Nat)
    (h1 : a.start + a.cliff ≤ now) (h2 : now < a.start + a.duration) :
    vestedAmount a now
      = a.initial + (a.total - a.initial) * (now - a.start) / a.duration := by
  unfold vestedAmount
  rw [if_neg (by omega), if_neg (by omega)]

/-- C3, witness at a concrete allocation and time. -/
theorem vestedAmount_mid_formula_witness :
    vestedAmount (Allocation.mk 0 2 10 100 0 20) 5 = 20 + 80 * 5 / 10 := by
  have h := vestedAmount_mid_formula (Allocation.mk 0 2 10 100 0 20) 5
    (by decide) (by decide)
  simpa using h

/-- C8.  For a fixed allocation with cliff ≤ duration and initial ≤ total,
vestedAmount is monotonically non-decreasing in time, across all branch
boundaries. -/
theorem vestedAmount_monotone (a : Allocation) (hcd : a.cliff ≤ a.duration)
    (hit : a.initial ≤ a.total) (t1 t2 : Nat) (h : t1 ≤ t2) :
    vestedAmount a t1 ≤ vestedAmount a t2 := by
  by_cases h1 : t1 < a.start + a.cliff
  · unfold vestedAmount
    rw [if_pos h1]
    exact Nat.zero_le _
  · by_cases h2 : a.start + a.duration ≤ t1
    · unfold vestedAmount
      rw [if_pos (show a.start + a.duration ≤ t1 from h2), if_neg (by omega),
        if_neg (by omega), if_pos (by omega)]
    · by_cases h3 : a.start + a.duration ≤ t2
      · have hv := vestedAmount_le_total a hit t1
        have hw : vestedAmount a t2 = a.total := by
          unfold vestedAmount
          rw [if_neg (by omega), if_pos h3]
        omega
      · unfold vestedAmount
        rw [if_neg h1, if_neg (by omega), if_neg (by omega), if_neg (by omega)]
        have hmul : (a.total - a.initial) * (t1 - a.start)
            ≤ (a.total - a.initial) * (t2 - a.start) :=
          Nat.mul_le_mul (Nat.le_refl _) (by omega)
        exact Nat.add_le_add_left (Nat.div_le_div_right hmul) _

/-- C8, witness at a concrete allocation and pair of times straddling the
cliff boundary. -/
theorem vestedAmount_monotone_witness :
    vestedAmount (Allocation.mk 0 5 10 100 0 20) 3
      ≤ vestedAmount (Allocation.mk 0 5 10 100 0 20) 7 :=
  vestedAmount_monotone (Allocation.mk 0 5 10 100 0 20)
    (by decide) (by decide) 3 7 (by decide)

/-- C10.  For an allocation that passed the cliff ≤ duration check of
issue and has duration = 0, the cliff is forced to 0 and the dividing
mid-range branch of vestedAmount is unreachable: before start the value is
0 and at every now at or after start it is total, so no division by zero
is performed and the allocation is fully vested from start on. -/
theorem vestedAmount_zero_duration (a : Allocation)
    (hcd : a.cliff ≤ a.duration) (hd : a.duration = 0) :
    a.cliff = 0 ∧
    ∀ now, vestedAmount a now = if now < a.start then 0 else a.total := by
  refine ⟨by omega, ?_⟩
  intro now
  by_cases hn : now < a.start
  · unfold vestedAmount
    rw [if_pos (by omega), if_pos hn]
  · unfold vestedAmount
    rw [if_neg (by omega), if_pos (by omega), if_neg hn]

/-- C10, witness: a zero-duration allocation is fully vested right at its
start time. -/
theorem vestedAmount_zero_duration_witness :
    vestedAmount (Allocation.mk 5 0 0 100 0 0) 5 = 100 := by
  have h := (vestedAmount_zero_duration (Allocation.mk 5 0 0 100 0 0)
    (by decide) rfl).2 5
  simpa using h

/-- C4.  For every valid index, revoke succeeds unconditionally (also when
the remainder is zero), transfers exactly remainder = total - claimed of
the addressed allocation to the caller (the issuer, not the beneficiary),
replaces the allocation by swap-and-pop, and shrinks the beneficiary's
sequence by exactly one. -/
theorem revoke_spec (s : VaultState) (caller b : Addr) (i : Nat)
    (h : i < (getAllocs s.store b).length) :
    revoke s caller b i =
      .ok (⟨setAllocs s.store b (swapPop (getAllocs s.store b) i h),
            s.balance - (((getAllocs s.store b).get ⟨i, h⟩).total -
              ((getAllocs s.store b).get ⟨i, h⟩).claimed)⟩,
           [Event.transferOut caller
             (((getAllocs s.store b).get ⟨i, h⟩).total -
               ((getAllocs s.store b).get ⟨i, h⟩).claimed)]) ∧
    (getAllocs (setAllocs s.store b (swapPop (getAllocs s.store b) i h)) b).length
      = (getAllocs s.store b).length - 1 := by
  constructor
  · unfold revoke
    rw [dif_pos h]
  · rw [getAllocs_setAllocs_same, swapPop_length]

/-- C4, witness: revoking index 0 of a two-element sequence with 30 of 100
already claimed pays the 70 remainder to the caller (address 9) and leaves
only the former last allocation, at index 0. -/
theorem revoke_spec_witness :
    revoke ⟨[(1, [Allocation.mk 0 0 10 100 30 0, Allocation.mk 5 0 10 50 0 0])], 120⟩
        9 1 0
      = .ok (⟨[(1, [Allocation.mk 5 0 10 50 0 0])], 50⟩,
             [Event.transferOut 9 70]) := by
  have h := (revoke_spec
    ⟨[(1, [Allocation.mk 0 0 10 100 30 0, Allocation.mk 5 0 10 50 0 0])], 120⟩
    9 1 0 (by decide)).1
  exact h.trans (by decide)

/-- C5.  Issue rejects with an error (and, being modelled in Except,
produces no state and no transfer) whenever the allowance is below the
amount, the beneficiary is the zero identity, the cliff exceeds the
duration, or the initial percentage exceeds 100; when all validations
pass it adds amount to the custodied balance and appends the allocation
with start = startAt, total = amount, claimed = 0 and
initial = amount * initialPct / 100 rounded down. -/
theorem issue_spec (s : VaultState) (caller : Addr) (allowance : Nat)
    (b : Addr) (amount startAt cliff duration initialPct : Nat) :
    (allowance < amount ∨ b = 0 ∨ duration < cliff ∨ 100 < initialPct →
      ∃ e, issue s caller allowance b amount startAt cliff duration initialPct
        = .error e) ∧
    (amount ≤ allowance → b ≠ 0 → cliff ≤ duration → initialPct ≤ 100 →
      issue s caller allowance b amount startAt cliff duration initialPct
        = .ok (⟨setAllocs s.store b (getAllocs s.store b ++
                  [⟨startAt, cliff, duration, amount, 0,
                    amount * initialPct / 100⟩]),
                s.balance + amount⟩,
               [Event.transferIn caller amount])) := by
  constructor
  · intro hbad
    unfold issue
    by_cases h1 : allowance < amount
    · exact ⟨_, by rw [if_pos h1]⟩
    · rw [if_neg h1]
      by_cases h2 : b = 0
      · exact ⟨_, by rw [if_pos h2]⟩
      · rw [if_neg h2]
        by_cases h3 : duration < cliff
        · exact ⟨_, by rw [if_pos h3]⟩
        · rw [if_neg h3]
          by_cases h4 : 100 < initialPct
          · exact ⟨_, by rw [if_pos h4]⟩
          · exfalso
            rcases hbad with hh | hh | hh | hh
            · exact h1 hh
            · exact h2 hh
            · exact h3 hh
            · exact h4 hh
  · intro ha hb hc hd
    unfold issue
    rw [if_neg (by omega), if_neg hb, if_neg (by omega), if_neg (by omega)]

/-- C5, witness: issuing 100 tokens at 25 percent initial tranche to
beneficiary 1 appends the allocation with initial 25 and raises the
custodied balance by 100. -/
theorem issue_spec_witness :
    issue ⟨[], 0⟩ 9 100 1 100 7 2 10 25
      = .ok (⟨[(1, [Allocation.mk 7 2 10 100 0 25])], 100⟩,
             [Event.transferIn 9 100]) := by
  have h := (issue_spec ⟨[], 0⟩ 9 100 1 100 7 2 10 25).2
    (by decide) (by decide) (by decide) (by decide)
  exact h.trans (by decide)

/-- C6.  For a valid index, release fails with NothingToRelease exactly
when the releasable amount is zero (in the Except model an error carries
no state and no transfer); on success it bumps claimed of exactly the
addressed allocation by the releasable amount, keeps the sequence length
and all other allocations and beneficiaries unchanged, and its event list
places the claimed update strictly before the outbound transfer to the
beneficiary. -/
theorem release_spec (s : VaultState) (b : Addr) (i now : Nat)
    (h : i < (getAllocs s.store b).length) :
    (release s b i now = .error .nothingToRelease ↔
      releasableAmount ((getAllocs s.store b).get ⟨i, h⟩) now = 0) ∧
    (releasableAmount ((getAllocs s.store b).get ⟨i, h⟩) now ≠ 0 →
      ∃ p, release s b i now = .ok p) ∧
    (∀ s2 ev, release s b i now = .ok (s2, ev) →
      (getAllocs s2.store b).length = (getAllocs s.store b).length ∧
      (getAllocs s2.store b)[i]? =
        some (bumpClaimed ((getAllocs s.store b).get ⟨i, h⟩)
          (releasableAmount ((getAllocs s.store b).get ⟨i, h⟩) now)) ∧
      (∀ j, j ≠ i → (getAllocs s2.store b)[j]? = (getAllocs s.store b)[j]?) ∧
      (∀ c, c ≠ b → getAllocs s2.store c = getAllocs s.store c) ∧
      ev = [Event.claimedSet b i
              (((getAllocs s.store b).get ⟨i, h⟩).claimed +
                releasableAmount ((getAllocs s.store b).get ⟨i, h⟩) now),
            Event.transferOut b
              (releasableAmount ((getAllocs s.store b).get ⟨i, h⟩) now)]) := by
  by_cases hz : releasableAmount ((getAllocs s.store b).get ⟨i, h⟩) now = 0
  · have herr : release s b i now = .error .nothingToRelease := by
      unfold release
      rw [dif_pos h, if_pos hz]
    refine ⟨⟨fun _ => hz, fun _ => herr⟩, fun hne => absurd hz hne, ?_⟩
    intro s2 ev heq
    rw [herr] at heq
    cases heq
  · have hok : release s b i now
        = .ok (releaseResult s b i ((getAllocs s.store b).get ⟨i, h⟩)
            (releasableAmount ((getAllocs s.store b).get ⟨i, h⟩) now)) := by
      unfold release
      rw [dif_pos h, if_neg hz]
    refine ⟨⟨?_, fun hc => absurd hc hz⟩, fun _ => ⟨_, hok⟩, ?_⟩
    · intro herr
      rw [hok] at herr
      cases herr
    · intro s2 ev heq
      rw [hok] at heq
      injection heq with hpair
      rw [releaseResult] at hpair
      injection hpair with h1 h2
      subst h1
      subst h2
      refine ⟨?_, ?_, ?_, ?_, rfl⟩
      · rw [getAllocs_setAllocs_same, List.length_set]
      · rw [getAllocs_setAllocs_same]
        exact List.getElem?_set_self h
      · intro j hj
        rw [getAllocs_setAllocs_same]
        exact List.getElem?_set_ne (Ne.symm hj)
      · intro c hc
        exact getAllocs_setAllocs_ne _ _ _ _ hc

/-- C6, witness: before the cliff the releasable amount is zero and
release fails with NothingToRelease. -/
theorem release_spec_witness :
    release ⟨[(1, [Allocation.mk 0 10 10 100 0 0])], 100⟩ 1 0 3
      = .error .nothingToRelease :=
  (release_spec ⟨[(1, [Allocation.mk 0 10 10 100 0 0])], 100⟩ 1 0 3
    (by decide)).1.mpr (by decide)


/-- Success and failure of the releaseAll loop, characterised by the
releasable amounts of the indices not yet visited: starting at index i
with enough fuel, the loop succeeds when every remaining index holds an
allocation with a positive releasable amount, and fails with
NothingToRelease when some remaining index holds one with releasable
amount zero. -/
lemma releaseAllLoop_spec (b : Addr) (now : Nat) :
    ∀ fuel (s : VaultState) (i : Nat),
      (getAllocs s.store b).length ≤ i + fuel →
      ((∀ j a, (getAllocs s.store b)[j]? = some a → i ≤ j →
          releasableAmount a now ≠ 0) →
        ∃ s2, releaseAllLoop b now fuel s i = .ok s2) ∧
      ((∃ j a, (getAllocs s.store b)[j]? = some a ∧ i ≤ j ∧
          releasableAmount a now = 0) →
        releaseAllLoop b now fuel s i = .error .nothingToRelease)
  | 0, s, i, hle => by
      constructor
      · intro _
        exact ⟨s, rfl⟩
      · rintro ⟨j, a, hsome, hij, _⟩
        obtain ⟨hlt, _⟩ := List.getElem?_eq_some_iff.mp hsome
        omega
  | fuel + 1, s, i, hle => by
      by_cases hi : i < (getAllocs s.store b).length
      · have hielem : (getAllocs s.store b)[i]?
            = some ((getAllocs s.store b).get ⟨i, hi⟩) :=
          List.getElem?_eq_getElem hi
        by_cases hz :
          releasableAmount ((getAllocs s.store b).get ⟨i, hi⟩) now = 0
        · have herr : release s b i now = .error .nothingToRelease := by
            unfold release
            rw [dif_pos hi, if_pos hz]
          have hloop : releaseAllLoop b now (fuel + 1) s i
              = .error .nothingToRelease := by
            simp only [releaseAllLoop]
            rw [if_pos hi, herr]
          constructor
          · intro hall
            exact absurd hz (hall i _ hielem (Nat.le_refl i))
          · intro _
            exact hloop
        · have hok : release s b i now
              = .ok (⟨setAllocs s.store b ((getAllocs s.store b).set i
                        (bumpClaimed ((getAllocs s.store b).get ⟨i, hi⟩)
                          (releasableAmount
                            ((getAllocs s.store b).get ⟨i, hi⟩) now))),
                      s.balance - releasableAmount
                        ((getAllocs s.store b).get ⟨i, hi⟩) now⟩,
                     [Event.claimedSet b i
                        (((getAllocs s.store b).get ⟨i, hi⟩).claimed +
                          releasableAmount
                            ((getAllocs s.store b).get ⟨i, hi⟩) now),
                      Event.transferOut b
                        (releasableAmount
                          ((getAllocs s.store b).get ⟨i, hi⟩) now)]) := by
            unfold release releaseResult
            rw [dif_pos hi, if_neg hz]
          have hstep : releaseAllLoop b now (fuel + 1) s i
              = releaseAllLoop b now fuel
                  ⟨setAllocs s.store b ((getAllocs s.store b).set i
                     (bumpClaimed ((getAllocs s.store b).get ⟨i, hi⟩)
                       (releasableAmount
                         ((getAllocs s.store b).get ⟨i, hi⟩) now))),
                   s.balance - releasableAmount
                     ((getAllocs s.store b).get ⟨i, hi⟩) now⟩ (i + 1) := by
            simp only [releaseAllLoop]
            rw [if_pos hi, hok]
          have hget : getAllocs (setAllocs s.store b ((getAllocs s.store b).set i
              (bumpClaimed ((getAllocs s.store b).get ⟨i, hi⟩)
                (releasableAmount ((getAllocs s.store b).get ⟨i, hi⟩) now)))) b
              = (getAllocs s.store b).set i
                  (bumpClaimed ((getAllocs s.store b).get ⟨i, hi⟩)
                    (releasableAmount ((getAllocs s.store b).get ⟨i, hi⟩) now)) :=
            getAllocs_setAllocs_same _ _ _
          have ih := releaseAllLoop_spec b now fuel
            ⟨setAllocs s.store b ((getAllocs s.store b).set i
               (bumpClaimed ((getAllocs s.store b).get ⟨i, hi⟩)
                 (releasableAmount ((getAllocs s.store b).get ⟨i, hi⟩) now))),
             s.balance - releasableAmount
               ((getAllocs s.store b).get ⟨i, hi⟩) now⟩ (i + 1)
            (by
              dsimp only
              rw [hget, List.length_set]
              omega)
          constructor
          · intro hall
            obtain ⟨s2, hs2⟩ := ih.1 (by
              intro j a hsome hij
              dsimp only at hsome
              rw [hget, List.getElem?_set_ne (by omega : i ≠ j)] at hsome
              exact hall j a hsome (by omega))
            exact ⟨s2, by rw [hstep]; exact hs2⟩
          · rintro ⟨j, a, hsome, hij, hz0⟩
            rw [hstep]
            by_cases hji : j = i
            · subst hji
              have ha := (hielem.symm.trans hsome)
              injection ha with ha2
              rw [← ha2] at hz0
              exact absurd hz0 hz
            · refine ih.2 ⟨j, a, ?_, by omega, hz0⟩
              dsimp only
              rw [hget, List.getElem?_set_ne (fun h => hji h.symm)]
              exact hsome
      · have hloop : releaseAllLoop b now (fuel + 1) s i = .ok s := by
          simp only [releaseAllLoop]
          rw [if_neg hi]
        constructor
        · intro _
          exact ⟨s, hloop⟩
        · rintro ⟨j, a, hsome, hij, _⟩
          obtain ⟨hlt, _⟩ := List.getElem?_eq_some_iff.mp hsome
          omega

/-- C1, counterexample.  The claim says releaseAll never fails when some
index has releasable amount zero and that every index with a positive
releasable amount is still released.  In the state holding beneficiary 1
two allocations — index 0 not yet started (releasable 0 at time 5) and
index 1 fully vested (releasable 50 at time 5) — releaseAll at time 5
fails outright with NothingToRelease: the inner release propagates its
error to the whole call, so the positive index 1 is not released
either. -/
theorem releaseAll_not_skipping_cex :
    releasableAmount (Allocation.mk 100 0 10 50 0 0) 5 = 0 ∧
    releasableAmount (Allocation.mk 0 0 1 50 0 0) 5 = 50 ∧
    releaseAll ⟨[(1, [Allocation.mk 100 0 10 50 0 0,
                      Allocation.mk 0 0 1 50 0 0])], 100⟩ 1 5
      = .error .nothingToRelease := by
  refine ⟨by decide, by decide, by decide⟩

/-- C1, amended.  releaseAll iterates over all current indices of the
beneficiary's sequence, but an index with releasable amount zero is not
skipped: the NothingToRelease failure of the inner release propagates and
fails the whole releaseAll call (reverting it entirely), so releaseAll
succeeds — releasing every index — exactly when every current index has a
positive releasable amount at that time. -/
theorem releaseAll_propagates_nothingToRelease (s : VaultState) (b : Addr)
    (now : Nat) :
    ((∀ (j : Nat) (a : Allocation), (getAllocs s.store b)[j]? = some a →
        releasableAmount a now ≠ 0) →
      ∃ s2, releaseAll s b now = .ok s2) ∧
    ((∃ (j : Nat) (a : Allocation), (getAllocs s.store b)[j]? = some a ∧
        releasableAmount a now = 0) →
      releaseAll s b now = .error .nothingToRelease) := by
  have h := releaseAllLoop_spec b now (getAllocs s.store b).length s 0
    (by omega)
  constructor
  · intro hall
    exact h.1 (fun j a hsome _ => hall j a hsome)
  · rintro ⟨j, a, hsome, hz⟩
    exact h.2 ⟨j, a, hsome, Nat.zero_le j, hz⟩

/-- C1, witness for the amended theorem: a single allocation still before
its cliff makes releaseAll fail with NothingToRelease. -/
theorem releaseAll_propagates_witness :
    releaseAll ⟨[(2, [Allocation.mk 0 10 10 100 0 0])], 100⟩ 2 3
      = .error .nothingToRelease :=
  (releaseAll_propagates_nothingToRelease
    ⟨[(2, [Allocation.mk 0 10 10 100 0 0])], 100⟩ 2 3).2
    ⟨0, Allocation.mk 0 10 10 100 0 0, by decide, by decide⟩

/-- Every allocation read back from a well-formed store is well formed. -/
lemma storeOk_getAllocs {st : Store} (hs : StoreOk st) (b : Addr) :
    ∀ a ∈ getAllocs st b, AllocOk a := by
  induction st with
  | nil =>
      intro a ha
      cases ha
  | cons p rest ih =>
      obtain ⟨c, ys⟩ := p
      intro a ha
      simp only [getAllocs] at ha
      by_cases hc : c = b
      · rw [if_pos hc] at ha
        exact hs (c, ys) (List.mem_cons_self _ _) a ha
      · rw [if_neg hc] at ha
        exact ih (fun q hq => hs q (List.mem_cons_of_mem _ hq)) a ha

/-- Writing a sequence of well-formed allocations keeps the store well
formed. -/
lemma storeOk_setAllocs {st : Store} (hs : StoreOk st) (b : Addr)
    {xs : List Allocation} (hxs : ∀ a ∈ xs, AllocOk a) :
    StoreOk (setAllocs st b xs) := by
  induction st with
  | nil =>
      intro p hp a ha
      rcases List.mem_cons.mp hp with hp | hp
      · subst hp
        exact hxs a ha
      · cases hp
  | cons q rest ih =>
      obtain ⟨c, ys⟩ := q
      simp only [setAllocs]
      by_cases hc : c = b
      · rw [if_pos hc]
        intro p hp a ha
        rcases List.mem_cons.mp hp with hp | hp
        · subst hp
          exact hxs a ha
        · exact hs p (List.mem_cons_of_mem _ hp) a ha
      · rw [if_neg hc]
        intro p hp a ha
        rcases List.mem_cons.mp hp with hp | hp
        · subst hp
          exact hs (c, ys) (List.mem_cons_self _ _) a ha
        · exact ih (fun q hq => hs q (List.mem_cons_of_mem _ hq)) p hp a ha

/-- Outstanding sum of a concatenation. -/
lemma allocsOutstanding_append (xs ys : List Allocation) :
    allocsOutstanding (xs ++ ys)
      = allocsOutstanding xs + allocsOutstanding ys := by
  simp [allocsOutstanding]

/-- One element's outstanding amount is at most the sequence's sum. -/
lemma outstanding_le_allocsOutstanding (xs : List Allocation) (i : Nat)
    (h : i < xs.length) :
    (xs.get ⟨i, h⟩).total - (xs.get ⟨i, h⟩).claimed
      ≤ allocsOutstanding xs := by
  have hmem : (xs.get ⟨i, h⟩).total - (xs.get ⟨i, h⟩).claimed ∈
      xs.map (fun a => a.total - a.claimed) :=
    List.mem_map.mpr ⟨xs.get ⟨i, h⟩, List.get_mem xs i h, rfl⟩
  exact List.le_sum_of_mem hmem

/-- Outstanding sum after an in-place update, in additive form. -/
lemma allocsOutstanding_set (xs : List Allocation) :
    ∀ (i : Nat) (h : i < xs.length) (v : Allocation),
      allocsOutstanding (xs.set i v) +
        ((xs.get ⟨i, h⟩).total - (xs.get ⟨i, h⟩).claimed)
        = allocsOutstanding xs + (v.total - v.claimed) := by
  induction xs with
  | nil =>
      intro i h v
      cases h
  | cons x tail ih =>
      intro i h v
      cases i with
      | zero =>
          simp only [List.set, allocsOutstanding, List.map, List.sum_cons,
            List.get]
          omega
      | succ n =>
          have hn : n < tail.length := Nat.lt_of_succ_lt_succ h
          have hih := ih n hn v
          simp only [List.set, allocsOutstanding, List.map, List.sum_cons,
            List.get] at hih ⊢
          omega

/-- Outstanding sum after dropping the last element, in additive form. -/
lemma allocsOutstanding_dropLast (xs : List Allocation) (h : xs ≠ []) :
    allocsOutstanding xs.dropLast +
      ((xs.getLast h).total - (xs.getLast h).claimed)
      = allocsOutstanding xs := by
  conv_rhs => rw [← List.dropLast_append_getLast h]
  rw [allocsOutstanding_append]
  simp [allocsOutstanding]

/-- Swap-and-pop removes exactly the outstanding amount of the removed
index from the sequence's outstanding sum. -/
lemma allocsOutstanding_swapPop (xs : List Allocation) (i : Nat)
    (h : i < xs.length) :
    allocsOutstanding (swapPop xs i h) +
      ((xs.get ⟨i, h⟩).total - (xs.get ⟨i, h⟩).claimed)
      = allocsOutstanding xs := by
  have hne : xs ≠ [] := by
    intro hemp
    subst hemp
    cases h
  unfold swapPop
  by_cases hlast : i = xs.length - 1
  · subst hlast
    rw [if_pos rfl]
    have hget : xs.get ⟨xs.length - 1, h⟩ = xs.getLast hne := by
      rw [List.getLast_eq_getElem, List.get_eq_getElem]
    rw [hget]
    exact allocsOutstanding_dropLast xs hne
  · rw [if_neg hlast]
    have hlen : xs.length - 1 < xs.length :=
      Nat.sub_lt (Nat.lt_of_le_of_lt (Nat.zero_le i) h) Nat.one_pos
    have hys : xs.set i (xs.get ⟨xs.length - 1, hlen⟩) ≠ [] := by
      intro hemp
      have := congrArg List.length hemp
      rw [List.length_set] at this
      simp only [List.length_nil] at this
      omega
    have hlast2 : (xs.set i (xs.get ⟨xs.length - 1, hlen⟩)).getLast hys
        = xs.get ⟨xs.length - 1, hlen⟩ := by
      rw [List.getLast_eq_getElem]
      simp only [List.length_set, List.get_eq_getElem]
      rw [List.getElem_set_ne (by omega)]
    have hdrop := allocsOutstanding_dropLast
      (xs.set i (xs.get ⟨xs.length - 1, hlen⟩)) hys
    rw [hlast2] at hdrop
    have hset := allocsOutstanding_set xs i h (xs.get ⟨xs.length - 1, hlen⟩)
    omega

/-- Every element surviving swap-and-pop was already in the sequence. -/
lemma mem_swapPop {xs : List Allocation} {i : Nat} {h : i < xs.length}
    {a : Allocation} (ha : a ∈ swapPop xs i h) : a ∈ xs := by
  unfold swapPop at ha
  have ha2 := (List.dropLast_sublist _).subset ha
  by_cases hlast : i = xs.length - 1
  · rw [if_pos hlast] at ha2
    exact ha2
  · rw [if_neg hlast] at ha2
    rcases List.mem_or_eq_of_mem_set ha2 with hmem | heq
    · exact hmem
    · subst heq
      exact List.get_mem xs _ _

/-- Outstanding sum over the whole store after rewriting one beneficiary,
in additive form.  No uniqueness of keys is needed: only the first entry
with the key is read and only the first is replaced. -/
lemma storeOutstanding_setAllocs (st : Store) (b : Addr)
    (xs : List Allocation) :
    storeOutstanding (setAllocs st b xs) + allocsOutstanding (getAllocs st b)
      = storeOutstanding st + allocsOutstanding xs := by
  induction st with
  | nil =>
      simp [setAllocs, getAllocs, storeOutstanding, allocsOutstanding]
  | cons p rest ih =>
      obtain ⟨c, ys⟩ := p
      simp only [setAllocs, getAllocs]
      by_cases hc : c = b
      · rw [if_pos hc, if_pos hc]
        simp only [storeOutstanding, List.map, List.sum_cons]
        omega
      · rw [if_neg hc, if_neg hc]
        simp only [storeOutstanding, List.map, List.sum_cons] at ih ⊢
        omega

/-- One beneficiary's outstanding sum is at most the whole store's. -/
lemma allocsOutstanding_getAllocs_le (st : Store) (b : Addr) :
    allocsOutstanding (getAllocs st b) ≤ storeOutstanding st := by
  induction st with
  | nil => simp [getAllocs, allocsOutstanding, storeOutstanding]
  | cons p rest ih =>
      obtain ⟨c, ys⟩ := p
      simp only [getAllocs, storeOutstanding, List.map, List.sum_cons]
      by_cases hc : c = b
      · rw [if_pos hc]
        omega
      · rw [if_neg hc]
        have := ih
        simp only [storeOutstanding] at this
        omega

/-- A successful issue preserves per-allocation soundness and the balance
accounting identity. -/
lemma issue_preserves_inv {s : VaultState} {caller : Addr} {allowance : Nat}
    {b : Addr} {amount startAt cliff duration initialPct : Nat}
    {s2 : VaultState} {ev : List Event}
    (heq : issue s caller allowance b amount startAt cliff duration initialPct
      = .ok (s2, ev))
    (hs : StoreOk s.store) (hb : s.balance = storeOutstanding s.store) :
    StoreOk s2.store ∧ s2.balance = storeOutstanding s2.store := by
  unfold issue at heq
  split at heq
  · cases heq
  · split at heq
    · cases heq
    · split at heq
      · cases heq
      · split at heq
        · cases heq
        · rename_i h1 h2 h3 h4
          injection heq with hpair
          injection hpair with hs2 hev
          subst hs2
          have hinit : amount * initialPct / 100 ≤ amount := by
            calc amount * initialPct / 100
                ≤ amount * 100 / 100 :=
                  Nat.div_le_div_right (Nat.mul_le_mul (Nat.le_refl _) (by omega))
              _ = amount := Nat.mul_div_cancel _ (by omega)
          have hallocOk : AllocOk
              ⟨startAt, cliff, duration, amount, 0, amount * initialPct / 100⟩ := by
            refine ⟨Nat.zero_le _, hinit, ?_⟩
            show cliff ≤ duration
            omega
          constructor
          · apply storeOk_setAllocs hs b
            intro a ha
            rcases List.mem_append.mp ha with ha2 | ha2
            · exact storeOk_getAllocs hs b a ha2
            · rcases List.mem_cons.mp ha2 with ha3 | ha3
              · subst ha3
                exact hallocOk
              · cases ha3
          · have e1 := storeOutstanding_setAllocs s.store b
              (getAllocs s.store b ++
                [⟨startAt, cliff, duration, amount, 0, amount * initialPct / 100⟩])
            have e2 : allocsOutstanding
                (getAllocs s.store b ++
                  [⟨startAt, cliff, duration, amount, 0, amount * initialPct / 100⟩])
                = allocsOutstanding (getAllocs s.store b) + amount := by
              rw [allocsOutstanding_append]
              simp [allocsOutstanding]
            dsimp only
            omega

/-- A successful release preserves per-allocation soundness and the
balance accounting identity. -/
lemma release_preserves_inv {s : VaultState} {b : Addr} {i now : Nat}
    {s2 : VaultState} {ev : List Event}
    (heq : release s b i now = .ok (s2, ev))
    (hs : StoreOk s.store) (hb : s.balance = storeOutstanding s.store) :
    StoreOk s2.store ∧ s2.balance = storeOutstanding s2.store := by
  unfold release at heq
  split at heq
  · rename_i h
    split at heq
    · cases heq
    · rename_i hz
      injection heq with hpair
      rw [releaseResult] at hpair
      injection hpair with h1 h2
      subst h1
      have hA : AllocOk ((getAllocs s.store b).get ⟨i, h⟩) :=
        storeOk_getAllocs hs b _ (List.get_mem _ i h)
      have hvle : vestedAmount ((getAllocs s.store b).get ⟨i, h⟩) now
          ≤ ((getAllocs s.store b).get ⟨i, h⟩).total :=
        vestedAmount_le_total _ hA.2.1 now
      have hamt : ((getAllocs s.store b).get ⟨i, h⟩).claimed +
          releasableAmount ((getAllocs s.store b).get ⟨i, h⟩) now
          ≤ ((getAllocs s.store b).get ⟨i, h⟩).total := by
        have hc := hA.1
        unfold releasableAmount
        omega
      have hbump : AllocOk (bumpClaimed ((getAllocs s.store b).get ⟨i, h⟩)
          (releasableAmount ((getAllocs s.store b).get ⟨i, h⟩) now)) := by
        unfold bumpClaimed AllocOk
        exact ⟨hamt, hA.2.1, hA.2.2⟩
      constructor
      · apply storeOk_setAllocs hs b
        intro a ha
        rcases List.mem_or_eq_of_mem_set ha with ha2 | ha2
        · exact storeOk_getAllocs hs b a ha2
        · subst ha2
          exact hbump
      · have e1 := storeOutstanding_setAllocs s.store b
          ((getAllocs s.store b).set i
            (bumpClaimed ((getAllocs s.store b).get ⟨i, h⟩)
              (releasableAmount ((getAllocs s.store b).get ⟨i, h⟩) now)))
        have e2 := allocsOutstanding_set (getAllocs s.store b) i h
          (bumpClaimed ((getAllocs s.store b).get ⟨i, h⟩)
            (releasableAmount ((getAllocs s.store b).get ⟨i, h⟩) now))
        have e3 := outstanding_le_allocsOutstanding (getAllocs s.store b) i h
        have e4 := allocsOutstanding_getAllocs_le s.store b
        have e5 : (bumpClaimed ((getAllocs s.store b).get ⟨i, h⟩)
            (releasableAmount ((getAllocs s.store b).get ⟨i, h⟩) now)).total
            = ((getAllocs s.store b).get ⟨i, h⟩).total := rfl
        have e6 : (bumpClaimed ((getAllocs s.store b).get ⟨i, h⟩)
            (releasableAmount ((getAllocs s.store b).get ⟨i, h⟩) now)).claimed
            = ((getAllocs s.store b).get ⟨i, h⟩).claimed +
              releasableAmount ((getAllocs s.store b).get ⟨i, h⟩) now := rfl
        dsimp only
        omega
  · cases heq

/-- A successful revoke preserves per-allocation soundness and the
balance accounting identity. -/
lemma revoke_preserves_inv {s : VaultState} {caller b : Addr} {i : Nat}
    {s2 : VaultState} {ev : List Event}
    (heq : revoke s caller b i = .ok (s2, ev))
    (hs : StoreOk s.store) (hb : s.balance = storeOutstanding s.store) :
    StoreOk s2.store ∧ s2.balance = storeOutstanding s2.store := by
  unfold revoke at heq
  split at heq
  · rename_i h
    injection heq with hpair
    injection hpair with h1 h2
    subst h1
    constructor
    · apply storeOk_setAllocs hs b
      intro a ha
      exact storeOk_getAllocs hs b a (mem_swapPop ha)
    · have e1 := storeOutstanding_setAllocs s.store b
        (swapPop (getAllocs s.store b) i h)
      have e2 := allocsOutstanding_swapPop (getAllocs s.store b) i h
      have e3 := outstanding_le_allocsOutstanding (getAllocs s.store b) i h
      have e4 := allocsOutstanding_getAllocs_le s.store b
      dsimp only
      omega
  · cases heq

/-- The releaseAll loop preserves per-allocation soundness and the
balance accounting identity. -/
lemma releaseAllLoop_preserves_inv (b : Addr) (now : Nat) :
    ∀ fuel (s : VaultState) (i : Nat) (s2 : VaultState),
      releaseAllLoop b now fuel s i = .ok s2 →
      StoreOk s.store → s.balance = storeOutstanding s.store →
      StoreOk s2.store ∧ s2.balance = storeOutstanding s2.store
  | 0, s, i, s2, heq, h1, h2 => by
      injection heq with h
      subst h
      exact ⟨h1, h2⟩
  | fuel + 1, s, i, s2, heq, h1, h2 => by
      simp only [releaseAllLoop] at heq
      split at heq
      · cases hrel : release s b i now with
        | error e =>
            rw [hrel] at heq
            cases heq
        | ok p =>
            obtain ⟨sm, evm⟩ := p
            rw [hrel] at heq
            have hmid := release_preserves_inv hrel h1 h2
            exact releaseAllLoop_preserves_inv b now fuel sm (i + 1) s2 heq
              hmid.1 hmid.2
      · injection heq with h
        subst h
        exact ⟨h1, h2⟩

/-- releaseAll preserves per-allocation soundness and the balance
accounting identity. -/
lemma releaseAll_preserves_inv {s : VaultState} {b : Addr} {now : Nat}
    {s2 : VaultState} (heq : releaseAll s b now = .ok s2)
    (hs : StoreOk s.store) (hb : s.balance = storeOutstanding s.store) :
    StoreOk s2.store ∧ s2.balance = storeOutstanding s2.store :=
  releaseAllLoop_preserves_inv b now (getAllocs s.store b).length s 0 s2
    heq hs hb

/-- Every reachable vault state has a well-formed store and a custodied
balance equal to the outstanding sum. -/
lemma reachable_inv {s : VaultState} (hs : Reachable s) :
    StoreOk s.store ∧ s.balance = storeOutstanding s.store := by
  induction hs with
  | init =>
      constructor
      · intro p hp a ha
        cases hp
      · rfl
  | issueStep s s2 ev caller allowance b amount startAt cliff duration
      initialPct hr heq ih =>
      exact issue_preserves_inv heq ih.1 ih.2
  | releaseStep s s2 ev b i now hr heq ih =>
      exact release_preserves_inv heq ih.1 ih.2
  | releaseAllStep s s2 b now hr heq ih =>
      exact releaseAll_preserves_inv heq ih.1 ih.2
  | revokeStep s s2 ev caller b i hr heq ih =>
      exact revoke_preserves_inv heq ih.1 ih.2

/-- C7.  In every state reachable from the empty vault by any sequence of
successful issue, release, releaseAll and revoke operations, every stored
allocation of every beneficiary satisfies claimed ≤ total (and the amount
is a Nat, so 0 ≤ claimed holds by type); every operation preserves this
invariant, which is what the induction over Reachable uses. -/
theorem reachable_claimed_le_total (s : VaultState) (hs : Reachable s)
    (b : Addr) (xs : List Allocation) (hmem : (b, xs) ∈ s.store)
    (a : Allocation) (ha : a ∈ xs) : a.claimed ≤ a.total :=
  ((reachable_inv hs).1 (b, xs) hmem a ha).1

/-- C7, witness: the invariant instantiated in the state reached by one
successful issue from the empty vault. -/
theorem reachable_claimed_le_total_witness :
    (Allocation.mk 7 2 10 100 0 25).claimed
      ≤ (Allocation.mk 7 2 10 100 0 25).total :=
  reachable_claimed_le_total
    ⟨[(1, [Allocation.mk 7 2 10 100 0 25])], 100⟩
    (Reachable.issueStep ⟨[], 0⟩ ⟨[(1, [Allocation.mk 7 2 10 100 0 25])], 100⟩
      [Event.transferIn 9 100] 9 100 1 100 7 2 10 25
      Reachable.init (by decide))
    1 [Allocation.mk 7 2 10 100 0 25] (by decide)
    (Allocation.mk 7 2 10 100 0 25) (by decide)

/-- C9.  In every reachable state, with the custodied token balance
modelled as part of the state (issue adds the pulled amount, release and
revoke subtract the transferred amounts), the balance equals the sum of
total - claimed over all live allocations of all beneficiaries; every
successful operation preserves this equality. -/
theorem reachable_balance_matches_outstanding (s : VaultState)
    (hs : Reachable s) : s.balance = storeOutstanding s.store :=
  (reachable_inv hs).2

/-- C9, witness: the accounting identity in the state reached by one
successful issue of 60 tokens from the empty vault. -/
theorem reachable_balance_matches_outstanding_witness :
    (VaultState.mk [(2, [Allocation.mk 0 0 10 60 0 0])] 60).balance
      = storeOutstanding
          (VaultState.mk [(2, [Allocation.mk 0 0 10 60 0 0])] 60).store :=
  reachable_balance_matches_outstanding
    ⟨[(2, [Allocation.mk 0 0 10 60 0 0])], 60⟩
    (Reachable.issueStep ⟨[], 0⟩ ⟨[(2, [Allocation.mk 0 0 10 60 0 0])], 60⟩
      [Event.transferIn 5 60] 5 60 2 60 0 0 10 0
      Reachable.init (by decide))
